import Mathlib

/-!
Verification of the ELLIO Traefik middleware plugin core against its design
specification.  The Go sources are shallowly embedded: pure functions become
Lean functions, the stateful updater and log-shipper paths become explicit
state passing, machine integers become `Nat` with explicit bounds, and
fallible code returns `Option` / sum results.
-/

namespace EllioPlugin

/-- Bit `i` (MSB first) of a `w`-bit value: the Go expression
`(ip >> (w-1-i)) & 1` used by `insertV4` and `containsV4` in
`pkg/iptrie/trie.go`. -/
def addrBit (w ip i : Nat) : Bool := ip / 2 ^ (w - 1 - i) % 2 == 1

/-- Bit selector of the IPv6 routines in `pkg/iptrie/trie.go`, which split the
address into the high and low 64-bit halves: `(high >> (63-i)) & 1` for
`i < 64` and `(low >> (127-i)) & 1` otherwise. -/
def v6Bit (high low i : Nat) : Bool :=
  if i < 64 then high / 2 ^ (63 - i) % 2 == 1 else low / 2 ^ (127 - i) % 2 == 1

/-- A node of the binary trie (`TrieNode` in `pkg/iptrie/trie.go`): two
optional children (bit 0 / bit 1), the terminal flag `isEnd` marking the end
of an inserted prefix, and the `depth` counter carried by the Go struct. -/
inductive TrieNode where
  | mk (left : Option TrieNode) (right : Option TrieNode) (isEnd : Bool) (depth : Nat)

/-- The `children[bit]` access of the Go code (`children[0]` = left). -/
def TrieNode.child : TrieNode → Bool → Option TrieNode
  | .mk l _ _ _, false => l
  | .mk _ r _ _, true => r

/-- The `isEnd` field of a trie node. -/
def TrieNode.isEnd : TrieNode → Bool
  | .mk _ _ e _ => e

/-- A freshly allocated node `&TrieNode{depth: d}`: no children, not terminal. -/
def TrieNode.fresh (d : Nat) : TrieNode := .mk none none false d

/-- The insertion loop of `insertV4` / `insertV6`: walk the given bit string
from the current node at depth `i`, creating missing children (with depth
`i+1`), and set `isEnd` on the final node. -/
def insertPath : List Bool → Nat → TrieNode → TrieNode
  | [], _, .mk l r _ d => .mk l r true d
  | b :: bs, i, .mk l r e d =>
    let c0 := match (if b then r else l) with
      | some c => c
      | none => TrieNode.fresh (i + 1)
    let c1 := insertPath bs (i + 1) c0
    if b then .mk l (some c1) e d else .mk (some c1) r e d

/-- The lookup loop of `containsV4` / `containsV6`: starting at a node, return
true as soon as a node with `isEnd` set is reached, descend along the bits,
and return false when a child is missing or the bits are exhausted. -/
def containsPath : List Bool → TrieNode → Bool
  | [], t => t.isEnd
  | b :: bs, t =>
    if t.isEnd then true
    else
      match t.child b with
      | none => false
      | some c => containsPath bs c

/-- Helper predicate for the correctness proof: the trie rooted at `t` has a
terminal node exactly at the end of path `p`. -/
def terminalAt : List Bool → TrieNode → Bool
  | [], t => t.isEnd
  | b :: bs, t =>
    match t.child b with
    | none => false
    | some c => terminalAt bs c

/-- A parsed IP address (`netip.Addr`): either a 4-byte IPv4 value (the
big-endian `uint32` of `As4`), or a 16-byte IPv6 value (the big-endian 128-bit
number of `As16`) together with its zone.  Note that in `net/netip` an
IPv4-mapped IPv6 address parsed from text stays a 16-byte address
(`Is4() == false`). -/
inductive Addr where
  | v4 (ip : Nat)
  | v6 (ip : Nat) (zone : String)
deriving DecidableEq, Repr

/-- The `netip.Addr.Is4` test: true only for 4-byte IPv4 values. -/
def Addr.is4 : Addr → Bool
  | .v4 _ => true
  | .v6 _ _ => false

/-- Address width in bits (32 for IPv4, 128 for IPv6). -/
def Addr.width : Addr → Nat
  | .v4 _ => 32
  | .v6 _ _ => 128

/-- The numeric value of an address. -/
def Addr.val : Addr → Nat
  | .v4 ip => ip
  | .v6 ip _ => ip

/-- An IP prefix (`netip.Prefix`): an address together with a prefix length. -/
structure Cidr where
  addr : Addr
  bits : Nat
deriving DecidableEq, Repr

/-- Well-formedness of a prefix: the address value fits its width and the
prefix length is at most the width (0..32 / 0..128). -/
def Cidr.wfp (p : Cidr) : Prop :=
  p.addr.val < 2 ^ p.addr.width ∧ p.bits ≤ p.addr.width

instance (p : Cidr) : Decidable p.wfp := by unfold Cidr.wfp; infer_instance

/-- Well-formedness of an address: its value fits its width. -/
def Addr.wfp (a : Addr) : Prop := a.val < 2 ^ a.width

instance (a : Addr) : Decidable a.wfp := by unfold Addr.wfp; infer_instance

/-- Specification-side notion from §3 / §8 of the design: prefix `p` covers
address `a` iff they are of the same family and the first `p.bits` bits
(MSB first) of `a` agree with those of `p`'s address. -/
def Cidr.covers (p : Cidr) (a : Addr) : Bool :=
  match p.addr, a with
  | .v4 pip, .v4 ip => decide (∀ i, i < p.bits → addrBit 32 pip i = addrBit 32 ip i)
  | .v6 pip _, .v6 ip _ => decide (∀ i, i < p.bits → addrBit 128 pip i = addrBit 128 ip i)
  | _, _ => false

/-- The binary trie (`Trie` in `pkg/iptrie/trie.go`): a prefix count and one
root per family.  The `sync.RWMutex` guards concurrent access in Go and has no
counterpart in this sequential embedding. -/
structure Trie where
  count : Int
  rootV4 : TrieNode
  rootV6 : TrieNode

/-- `NewTrie`: empty roots, count 0. -/
def Trie.new : Trie := ⟨0, TrieNode.fresh 0, TrieNode.fresh 0⟩

/-- `insertV4` of `pkg/iptrie/trie.go`: insert the first `prefixLen` MSB-first
bits of the 32-bit value into the trie. -/
def insertV4 (root : TrieNode) (ip : Nat) (prefixLen : Nat) : TrieNode :=
  insertPath ((List.range prefixLen).map fun i => addrBit 32 ip i) 0 root

/-- `insertV6` of `pkg/iptrie/trie.go`, processing the address as two 64-bit
halves. -/
def insertV6 (root : TrieNode) (ip : Nat) (prefixLen : Nat) : TrieNode :=
  insertPath ((List.range prefixLen).map fun i => v6Bit (ip / 2 ^ 64) (ip % 2 ^ 64) i) 0 root

/-- `Trie.Insert`: route by `addr.Is4()` and increment the count. -/
def Trie.insert (t : Trie) (p : Cidr) : Trie :=
  match p.addr with
  | .v4 ip => { t with rootV4 := insertV4 t.rootV4 ip p.bits, count := t.count + 1 }
  | .v6 ip _ => { t with rootV6 := insertV6 t.rootV6 ip p.bits, count := t.count + 1 }

/-- `containsV4` of `pkg/iptrie/trie.go`. -/
def containsV4 (root : TrieNode) (ip : Nat) : Bool :=
  containsPath ((List.range 32).map fun i => addrBit 32 ip i) root

/-- `containsV6` of `pkg/iptrie/trie.go`. -/
def containsV6 (root : TrieNode) (ip : Nat) : Bool :=
  containsPath ((List.range 128).map fun i => v6Bit (ip / 2 ^ 64) (ip % 2 ^ 64) i) root

/-- `Trie.Contains` / `Trie.ContainsUnsafe` (identical up to the read lock,
which this sequential embedding has no need for): route by `addr.Is4()`. -/
def Trie.containsAddr (t : Trie) (a : Addr) : Bool :=
  match a with
  | .v4 ip => containsV4 t.rootV4 ip
  | .v6 ip _ => containsV6 t.rootV6 ip

/-- Building a trie from a list of prefixes by repeated `Insert`. -/
def buildTrie (P : List Cidr) : Trie := P.foldl Trie.insert Trie.new

end EllioPlugin

namespace EllioPlugin

/-- The bit path that `Trie.Insert` walks for a prefix. -/
def pathBits (p : Cidr) : List Bool :=
  match p.addr with
  | .v4 ip => (List.range p.bits).map fun i => addrBit 32 ip i
  | .v6 ip _ => (List.range p.bits).map fun i => v6Bit (ip / 2 ^ 64) (ip % 2 ^ 64) i

end EllioPlugin

namespace EllioPlugin

/-- Big-endian byte-list to number. -/
def beBytes (bs : List Nat) : Nat := bs.foldl (fun a b => a * 256 + b) 0

/-- Model of the Go stdlib `parseIPv4Fields` (net/netip): strict dotted-quad
parser, exactly four fields of 1-3 digits, value at most 255, no leading
zeros.  The positional error checks of the Go loop (`i == 0`,
`i == len(s)-1`, `s[i-1] == '.'`) are expressed through the running digit
count and the remaining input. -/
def parseIPv4Go : List Char → Nat → Nat → List Nat → Option (List Nat)
  | [], val, _, acc =>
    if acc.length < 3 then none else some (acc ++ [val])
  | c :: rest, val, digLen, acc =>
    if c.isDigit then
      if digLen == 1 && val == 0 then none
      else
        let val1 := val * 10 + (c.toNat - 48)
        if val1 > 255 then none
        else parseIPv4Go rest val1 (digLen + 1) acc
    else if c == '.' then
      if digLen == 0 || rest.isEmpty then none
      else if acc.length == 3 then none
      else parseIPv4Go rest 0 0 (acc ++ [val])
    else none

/-- The four dotted-quad bytes of a textual IPv4 address, if valid. -/
def parseIPv4Fields (s : List Char) : Option (List Nat) := parseIPv4Go s 0 0 []

/-- Model of the Go stdlib `parseIPv4` (net/netip). -/
def parseIPv4 (s : List Char) : Option Addr :=
  (parseIPv4Fields s).map fun fs => .v4 (beBytes fs)

/-- One hexadecimal digit, as in the chunk scanner of `parseIPv6`. -/
def hexVal (c : Char) : Option Nat :=
  if c.isDigit then some (c.toNat - 48)
  else if 'a' ≤ c ∧ c ≤ 'f' then some (c.toNat - 97 + 10)
  else if 'A' ≤ c ∧ c ≤ 'F' then some (c.toNat - 65 + 10)
  else none

/-- The 16-bit hex chunk scanner of the Go `parseIPv6` loop: consume leading
hex digits, rejecting a fifth digit or a value above `0xFFFF`. Returns the
number of digits consumed and the accumulated value. -/
def hexChunk : List Char → Nat → Nat → Option (Nat × Nat)
  | [], off, acc => some (off, acc)
  | c :: rest, off, acc =>
    match hexVal c with
    | none => some (off, acc)
    | some v =>
      let acc1 := acc * 16 + v
      if off > 3 then none
      else if acc1 > 65535 then none
      else hexChunk rest (off + 1) acc1

/-- State after the main `parseIPv6` loop: accumulated bytes, unconsumed
input, and the byte position of a `::` ellipsis if one was seen. -/
structure P6State where
  acc : List Nat
  srem : List Char
  ell : Option Nat

/-- The main loop of the Go stdlib `parseIPv6` (net/netip): parse
colon-separated 16-bit hex groups into bytes, handle an embedded trailing
dotted-quad IPv4 (via `parseIPv4Fields` on the rest of the string starting at
the current field), and record at most one `::` ellipsis.  `fuel` dominates
the input length; every iteration consumes at least one character. -/
def p6loop : Nat → List Char → Nat → Option Nat → List Nat → Option P6State
  | 0, _, _, _, _ => none
  | fuel + 1, s, i, ell, acc =>
    if 16 ≤ i then some ⟨acc, s, ell⟩
    else
      match hexChunk s 0 0 with
      | none => none
      | some (off, acc1) =>
        if off == 0 then none
        else
          match s.drop off with
          | '.' :: _ =>
            if ell == none && i != 12 then none
            else if i + 4 > 16 then none
            else
              match parseIPv4Fields s with
              | none => none
              | some fs => some ⟨acc ++ fs, [], ell⟩
          | [] => some ⟨acc ++ [acc1 / 256, acc1 % 256], [], ell⟩
          | ':' :: s3 =>
            let acc2 := acc ++ [acc1 / 256, acc1 % 256]
            if s3.isEmpty then none
            else
              match s3 with
              | ':' :: s4 =>
                if ell.isSome then none
                else if s4.isEmpty then some ⟨acc2, [], some (i + 2)⟩
                else p6loop fuel s4 (i + 2) (some (i + 2)) acc2
              | _ => p6loop fuel s3 (i + 2) ell acc2
          | _ => none

/-- Post-processing of the `parseIPv6` loop result: the whole input must be
consumed; if fewer than 16 bytes were produced an ellipsis must be present
and is expanded with zero bytes at its recorded position; if all 16 bytes
were produced an ellipsis is rejected. -/
def p6finish (zone : String) : Option P6State → Option Addr
  | none => none
  | some ⟨acc, srem, ell⟩ =>
    if !srem.isEmpty then none
    else if acc.length < 16 then
      match ell with
      | none => none
      | some e =>
        some (.v6 (beBytes (acc.take e ++ List.replicate (16 - acc.length) 0 ++ acc.drop e)) zone)
    else if ell.isSome then none
    else some (.v6 (beBytes acc) zone)

/-- First occurrence split: `(before, some after)` when `c` occurs. -/
def splitAtChar (c : Char) : List Char → List Char × Option (List Char)
  | [] => ([], none)
  | x :: rest =>
    if x == c then ([], some rest)
    else
      let (b, a) := splitAtChar c rest
      (x :: b, a)

/-- Model of the Go stdlib `parseIPv6` (net/netip): split off a non-empty
zone at the first `%`, handle a leading `::` (alone it denotes the
unspecified address), then run the group loop and finish. -/
def parseIPv6 (inp : List Char) : Option Addr :=
  let (s, zc) := splitAtChar '%' inp
  let zone : Option String :=
    match zc with
    | none => some ""
    | some z => if z.isEmpty then none else some (String.mk z)
  match zone with
  | none => none
  | some zn =>
    match s with
    | ':' :: ':' :: rest =>
      if rest.isEmpty then some (.v6 0 zn)
      else p6finish zn (p6loop (rest.length + 1) rest 0 (some 0) [])
    | _ => p6finish zn (p6loop (s.length + 1) s 0 none [])

/-- Model of the Go stdlib `netip.ParseAddr`: dispatch on the first special
character of the input — `.` selects the IPv4 parser, `:` the IPv6 parser,
`%` is an error, and an input without any of them is an error. -/
def firstSpecial : List Char → Option Char
  | [] => none
  | c :: rest => if c == '.' || c == ':' || c == '%' then some c else firstSpecial rest

/-- `netip.ParseAddr` (errors collapsed to `none`). -/
def parseAddr (s : String) : Option Addr :=
  match firstSpecial s.data with
  | some c => if c == '.' then parseIPv4 s.data else if c == ':' then parseIPv6 s.data else none
  | none => none

end EllioPlugin

namespace EllioPlugin

/-- Index of the last occurrence of a character. -/
def lastIndexOf (c : Char) (cs : List Char) : Option Nat :=
  match cs.reverse.findIdx? (· == c) with
  | none => none
  | some r => some (cs.length - 1 - r)

/-- Model of the Go stdlib `net.SplitHostPort`: the port starts after the
last colon; a bracketed host `[h]:p` requires the `]` right before that
colon; an unbracketed host must not contain a colon; stray brackets are
rejected.  Errors collapse to `none`. -/
def splitHostPort (hostport : String) : Option (String × String) :=
  let cs := hostport.data
  match lastIndexOf ':' cs with
  | none => none
  | some i =>
    if cs.headD ' ' == '[' then
      match cs.findIdx? (· == ']') with
      | none => none
      | some endIdx =>
        if endIdx + 1 == cs.length then none
        else if endIdx + 1 == i then
          if (cs.drop 1).contains '[' then none
          else if (cs.drop (endIdx + 1)).contains ']' then none
          else some (String.mk ((cs.drop 1).take (endIdx - 1)), String.mk (cs.drop (i + 1)))
        else none
    else
      if (cs.take i).contains ':' then none
      else if cs.contains '[' then none
      else if cs.contains ']' then none
      else some (String.mk (cs.take i), String.mk (cs.drop (i + 1)))

/-- `getDirectIP` of the middleware (`SplitHostPort` succeeding yields the
host, otherwise the remote address is returned unchanged). -/
def getDirectIP (remoteAddr : String) : String :=
  match splitHostPort remoteAddr with
  | some hp => hp.1
  | none => remoteAddr

/-- ASCII whitespace trimmed by Go `strings.TrimSpace` (the Unicode cases
beyond ASCII are not relevant to header values modelled here). -/
def isGoSpace (c : Char) : Bool :=
  c == ' ' || c == '\t' || c == '\n' || c == Char.ofNat 11 || c == Char.ofNat 12 || c == '\r'

/-- Model of Go `strings.TrimSpace` on ASCII input. -/
def trimSpace (s : String) : String :=
  String.mk (((s.data.dropWhile isGoSpace).reverse.dropWhile isGoSpace).reverse)

/-- `http.Header.Get`: first value for the key, empty string when absent.
Keys are compared literally; the middleware only reads canonical names. -/
def headerGet (hs : List (String × String)) (k : String) : String :=
  match hs.find? (fun kv => kv.1 == k) with
  | some kv => kv.2
  | none => ""

/-- The request data consumed by `extractClientIP`. -/
structure Request where
  remoteAddr : String
  headers : List (String × String)

/-- Model of `netip.Prefix.Contains`: same family, no zone on the probed
address, and the first `bits` bits agree (Go compares `xor` shifted right by
`width - bits`; a shift by the full width yields 0, so a `/0` prefix contains
every address of its family). -/
def Cidr.containsIP (p : Cidr) (a : Addr) : Bool :=
  match p.addr, a with
  | .v4 pip, .v4 ip => Nat.xor ip pip / 2 ^ (32 - p.bits) == 0
  | .v6 pip _, .v6 ip z => z == "" && (Nat.xor ip pip / 2 ^ (128 - p.bits) == 0)
  | _, _ => false

/-- The per-instance middleware configuration fields used on the request
path (`Config.IPStrategy`, `Config.TrustedHeader`). -/
structure MwConfig where
  ipStrategy : String
  trustedHeader : String

/-- The per-instance middleware state: its config and the parsed
trusted-proxy ranges. -/
structure Middleware where
  config : MwConfig
  trustedProxies : List Cidr

/-- `EllioMiddleware.isFromTrustedProxy`: parse the textual IP (failure means
untrusted) and test membership in any trusted prefix. -/
def isFromTrustedProxy (e : Middleware) (ip : String) : Bool :=
  match parseAddr ip with
  | none => false
  | some addr => e.trustedProxies.any fun t => t.containsIP addr

/-- Model of Go `strings.Split` with a one-character separator, as used on
`X-Forwarded-For` (`strings.Split(xff, ",")`): never empty, one part per
separator occurrence. -/
def splitGo (sep : Char) : List Char → List (List Char)
  | [] => [[]]
  | c :: rest =>
    if c == sep then [] :: splitGo sep rest
    else
      match splitGo sep rest with
      | [] => [[c]]
      | g :: gs => (c :: g) :: gs

/-- `EllioMiddleware.extractClientIP`: direct strategy or no trusted proxies
returns the direct IP; an untrusted peer ignores headers; otherwise the
strategy selects a forwarding header, falling back to the direct IP when the
header is absent. -/
def extractClientIP (e : Middleware) (r : Request) : String :=
  let directIP := getDirectIP r.remoteAddr
  if e.config.ipStrategy == "direct" || e.trustedProxies.length == 0 then directIP
  else if !(isFromTrustedProxy e directIP) then directIP
  else if e.config.ipStrategy == "xff" then
    let xff := headerGet r.headers "X-Forwarded-For"
    if xff != "" then trimSpace (String.mk ((splitGo ',' xff.data).headD [])) else directIP
  else if e.config.ipStrategy == "real-ip" then
    let realIP := headerGet r.headers "X-Real-IP"
    if realIP != "" then trimSpace realIP else directIP
  else if e.config.ipStrategy == "custom" then
    if e.config.trustedHeader != "" then
      let customIP := headerGet r.headers e.config.trustedHeader
      if customIP != "" then trimSpace customIP else directIP
    else directIP
  else directIP

/-- Go `error` values surfaced by this embedding: the typed `*APIError` of
`pkg/api`, plain `errors.New` strings, and the opaque `netip.ParseAddr`
failure. -/
inductive Err where
  | apiError (statusCode : Nat) (message : String)
  | simple (message : String)
  | parseAddrFailure (input : String)
deriving DecidableEq, Repr

/-- The matcher bundle (`trieData` of `pkg/ipmatcher/matcher.go`): the current
trie and its approximate entry count, replaced wholesale by `Update`. -/
structure Matcher where
  trie : Trie
  count : Int

/-- `ipmatcher.New`: an empty trie with count 0. -/
def Matcher.new : Matcher := ⟨Trie.new, 0⟩

/-- `Matcher.ContainsAddr`: delegate to the current trie. -/
def Matcher.containsAddr (m : Matcher) (a : Addr) : Bool := Trie.containsAddr m.trie a

/-- `Matcher.Contains`: parse the textual IP (failure yields `false`) and
delegate to the current trie. -/
def Matcher.containsStr (m : Matcher) (ipStr : String) : Bool :=
  match parseAddr ipStr with
  | none => false
  | some a => m.containsAddr a

/-- `Matcher.Update`: replace the bundle with the new trie and count. -/
def Matcher.update (_ : Matcher) (newTrie : Trie) (c : Int) : Matcher := ⟨newTrie, c⟩

/-- The manager fields read on the request path (`singleton.Manager`). -/
structure Manager where
  deploymentEnabled : Bool
  temporarilyDisabled : Bool
  edlMode : String
  matcher : Matcher

/-- `Manager.IsDeploymentEnabled`: enabled and not temporarily disabled. -/
def Manager.isDeploymentEnabled (m : Manager) : Bool :=
  m.deploymentEnabled && !m.temporarilyDisabled

/-- `Manager.IsIPAllowed`: allow everything when the deployment is not
enabled; otherwise `allowed = (mode == "blocklist") != matcher.Contains(ip)`.
The returned error is always `nil` in the Go source. -/
def Manager.isIPAllowed (m : Manager) (clientIP : String) : Bool × Option Err :=
  if !(m.isDeploymentEnabled) then (true, none)
  else
    let inList := m.matcher.containsStr clientIP
    let isBlocklist := m.edlMode == "blocklist"
    (isBlocklist != inList, none)

/-- `Manager.IsIPAllowedWithStats` (the debug-mode variant): parses the IP
explicitly and returns the parse error; otherwise the same formula. -/
def Manager.isIPAllowedWithStats (m : Manager) (clientIP : String) :
    Bool × Bool × Option Err :=
  if !(m.isDeploymentEnabled) then (true, false, none)
  else
    match parseAddr clientIP with
    | none => (false, false, some (.parseAddrFailure clientIP))
    | some addr =>
      let inList := m.matcher.containsAddr addr
      let isBlocklist := m.edlMode == "blocklist"
      (isBlocklist != inList, false, none)

/-- The observable decision of `EllioMiddleware.ServeHTTP` for one request. -/
inductive Outcome where
  | pass
  | badRequest
  | blocked
deriving DecidableEq, Repr

/-- The decision path of `EllioMiddleware.ServeHTTP` (non-debug branch):
no manager or disabled deployment passes through, an empty client IP or an
`IsIPAllowed` error yields 400, an allowed IP passes through, and a denied IP
is blocked with the 403 page plus a block event. -/
def serveHTTPDecision (mgr : Option Manager) (e : Middleware) (r : Request) : Outcome :=
  match mgr with
  | none => .pass
  | some m =>
    if !(m.isDeploymentEnabled) then .pass
    else
      let clientIP := extractClientIP e r
      if clientIP == "" then .badRequest
      else
        match m.isIPAllowed clientIP with
        | (_, some _) => .badRequest
        | (allowed, none) => if allowed then .pass else .blocked

end EllioPlugin

namespace EllioPlugin

/-- The updater status fields of `EDLUpdater` (`lastUpdate` modelled as an
abstract clock value). -/
structure UpdaterState where
  lastUpdate : Nat
  lastError : Option Err
  updateCount : Int

/-- Outcome of `fetchWithRetry`, which performs network I/O and is therefore
an input of the embedding: either a freshly parsed trie with its count, or an
error. -/
inductive FetchResult where
  | ok (trie : Trie) (count : Int)
  | fail (e : Err)

/-- `EDLUpdater.updateNow`: on fetch failure record `lastError` and return the
error, leaving the matcher untouched; on success update the matcher, record
`lastUpdate := now`, clear `lastError` and increment `updateCount`.  The Go
`atomic.Value` store is the wholesale matcher replacement here. -/
def updateNow (res : FetchResult) (now : Nat) (u : UpdaterState) (m : Matcher) :
    Option Err × UpdaterState × Matcher :=
  match res with
  | .fail e => (some e, { u with lastError := some e }, m)
  | .ok trie count =>
    (none, { lastUpdate := now, lastError := none, updateCount := u.updateCount + 1 },
      m.update trie count)

/-- A block event; its payload fields are irrelevant to the buffer logic. -/
structure BlockEvent where
  id : Nat
deriving DecidableEq, Repr

/-- `RingBuffer` of `pkg/logs/buffer.go`: fixed-capacity circular storage
with head/tail indices and a size counter. -/
structure RingBuffer where
  buffer : List (Option BlockEvent)
  capacity : Nat
  head : Nat
  tail : Nat
  size : Nat
deriving DecidableEq, Repr

/-- `NewRingBuffer`. -/
def RingBuffer.new (capacity : Nat) : RingBuffer :=
  ⟨List.replicate capacity none, capacity, 0, 0, 0⟩

/-- `RingBuffer.Add`: when full, overwrite the slot at `tail` (the oldest,
since `tail = head` at capacity) and advance both indices; otherwise store and
grow.  Returns `true` in both branches, exactly as the Go code does. -/
def RingBuffer.add (rb : RingBuffer) (event : BlockEvent) : Bool × RingBuffer :=
  if rb.size ≥ rb.capacity then
    (true, { rb with buffer := rb.buffer.set rb.tail (some event),
                     tail := (rb.tail + 1) % rb.capacity,
                     head := (rb.head + 1) % rb.capacity })
  else
    (true, { rb with buffer := rb.buffer.set rb.tail (some event),
                     tail := (rb.tail + 1) % rb.capacity,
                     size := rb.size + 1 })

/-- The shipper state touched by `LogShipper.SendEvent`: the ingress channel
(capacity 1000), the overflow ring buffer, and the drop counter. -/
structure ShipperState where
  chan : List BlockEvent
  buffer : RingBuffer
  eventsDropped : Int
deriving DecidableEq, Repr

/-- `LogShipper.SendEvent`: a non-full channel accepts the event; otherwise
the event goes to the ring buffer, and only a `false` return from `Add` would
increment the drop counter. -/
def sendEvent (s : ShipperState) (event : BlockEvent) : ShipperState :=
  if s.chan.length < 1000 then { s with chan := s.chan ++ [event] }
  else
    let res := s.buffer.add event
    if !res.1 then { s with buffer := res.2, eventsDropped := s.eventsDropped + 1 }
    else { s with buffer := res.2 }

/-- The status-code mapping of `BootstrapClient.Bootstrap` (and identically
`ConfigClient.GetEDLConfig`): the `*APIError` produced for a response, `none`
meaning the 200 success path continues to decode the body.  `body.take 1024`
models `io.ReadAll(io.LimitReader(resp.Body, 1024))` on ASCII bodies. -/
def bootstrapStatusResult (status : Nat) (body : String) : Option Err :=
  if status == 410 then some (.apiError 410 "deployment permanently deleted")
  else if status == 403 then
    some (.apiError 403 ("deployment temporarily disabled: " ++ body.take 1024))
  else if status != 200 then
    some (.apiError status
      ("bootstrap failed with status " ++ toString status ++ ": " ++ body.take 1024))
  else none

/-- `api.IsPermanentError`: a typed `*APIError` with status 410. -/
def isPermanentError : Err → Bool
  | .apiError sc _ => sc == 410
  | _ => false

/-- `api.IsTemporaryDisabled`: a typed `*APIError` with status 403. -/
def isTemporaryDisabled : Err → Bool
  | .apiError sc _ => sc == 403
  | _ => false

end EllioPlugin

namespace EllioPlugin

/-- `ErrInvalidMagic` of `pkg/iptrie`. -/
def errInvalidMagic : Err := .simple "invalid magic header, not an ELLIOTRIE format file"

/-- `ErrUnsupportedVersion` of `pkg/iptrie`. -/
def errUnsupportedVersion : Err := .simple "unsupported ELLIOTRIE format version"

/-- The error `binary.Read` surfaces on a short stream: `io.EOF` when nothing
could be read, `io.ErrUnexpectedEOF` on a partial read. -/
def binReadErr (bs : List Nat) : Err :=
  if bs.isEmpty then .simple "EOF" else .simple "unexpected EOF"

/-- The ASCII bytes of the `ELLIOTRIE` magic header. -/
def magicBytes : List Nat := [69, 76, 76, 73, 79, 84, 82, 73, 69]

/-- A raw 9-byte node record of the serialized format: 32-bit left and right
child indices and the packed flags byte. -/
structure SerializedNode where
  leftChild : Nat
  rightChild : Nat
  flags : Nat
deriving DecidableEq, Repr

/-- Split the byte stream into `n` consecutive 9-byte big-endian records. -/
def chunkNodes : Nat → List Nat → List SerializedNode
  | 0, _ => []
  | n + 1, bs =>
    ⟨beBytes (bs.take 4), beBytes ((bs.drop 4).take 4), bs.getD 8 0⟩ :: chunkNodes n (bs.drop 9)

/-- The trie materialized by the loader, kept in index form: for each node its
resolved child indices (`none` for the `0xFFFFFFFF` sentinel), terminal flag
and depth, plus the root indices (`none` meaning a fresh empty root). -/
structure LoadedTrie where
  totalNodes : Nat
  nodes : List (Option Nat × Option Nat × Bool × Nat)
  rootV4idx : Option Nat
  rootV6idx : Option Nat
deriving DecidableEq, Repr

/-- Result of the loader: success with the approximate count, a returned
error, or a Go runtime panic (out-of-range slice index). -/
inductive LoadResult where
  | ok (t : LoadedTrie) (count : Int)
  | fail (e : Err)
  | panicked (msg : String)
deriving DecidableEq, Repr

/-- The child/root index dereference `&nodes[idx]` of the loader: the
`0xFFFFFFFF` sentinel means no child, an index inside the node array is kept,
and any other index panics, as Go slice indexing does — the loader performs no
bounds check of its own. -/
def resolveIdx (totalNodes idx : Nat) : Except String (Option Nat) :=
  if idx == 4294967295 then .ok none
  else if idx < totalNodes then .ok (some idx)
  else .error "runtime error: index out of range"

/-- The node-reconstruction loop of the loader, in array order, left child
before right, unpacking the flags byte (bit 0 terminal, bits 1..7 depth). -/
def resolveNodes (totalNodes : Nat) (ns : List SerializedNode) :
    Except String (List (Option Nat × Option Nat × Bool × Nat)) :=
  ns.mapM fun sn => do
    let l ← resolveIdx totalNodes sn.leftChild
    let r ← resolveIdx totalNodes sn.rightChild
    pure (l, r, sn.flags % 2 == 1, sn.flags / 2)

/-- `LoadPrecomputedTrie` of `pkg/iptrie`: read the 24-byte header
(9-byte magic, big-endian `uint16` version, flags byte, `uint32` total node
count and the two root indices), validate magic then version, read
`totalNodes` 9-byte records, materialize the node array resolving child and
root indices (panicking on an out-of-range index), and return the trie with
the approximate count `totalNodes / 7`. -/
def loadPrecomputedTrie (input : List Nat) : LoadResult :=
  if input.length < 24 then .fail (binReadErr input)
  else
    let magic := input.take 9
    let version := beBytes ((input.drop 9).take 2)
    let totalNodes := beBytes ((input.drop 12).take 4)
    let v4root := beBytes ((input.drop 16).take 4)
    let v6root := beBytes ((input.drop 20).take 4)
    if magic != magicBytes then .fail errInvalidMagic
    else if version != 2 then .fail errUnsupportedVersion
    else
      let rest := input.drop 24
      if rest.length < 9 * totalNodes then .fail (binReadErr rest)
      else
        match resolveNodes totalNodes (chunkNodes totalNodes rest) with
        | .error msg => .panicked msg
        | .ok resolved =>
          match resolveIdx totalNodes v4root with
          | .error msg => .panicked msg
          | .ok r4 =>
            match resolveIdx totalNodes v6root with
            | .error msg => .panicked msg
            | .ok r6 => .ok ⟨totalNodes, resolved, r4, r6⟩ (Int.ofNat (totalNodes / 7))

end EllioPlugin

namespace EllioPlugin
theorem terminalAt_fresh (p : List Bool) (d : Nat) : terminalAt p (TrieNode.fresh d) = false := by
  cases p with
  | nil => rfl
  | cons b ps => cases b <;> rfl

theorem containsPath_iff (bits : List Bool) : ∀ t : TrieNode,
    containsPath bits t = true ↔ ∃ k, terminalAt (List.take k bits) t = true := by
  induction bits with
  | nil =>
    intro t
    constructor
    · intro h; exact ⟨0, by simpa [terminalAt] using h⟩
    · rintro ⟨k, hk⟩; simpa [containsPath, terminalAt] using hk
  | cons b bs ih =>
    intro t
    by_cases he : t.isEnd = true
    · constructor
      · intro _; exact ⟨0, by simpa [terminalAt] using he⟩
      · intro _; simp [containsPath, he]
    · rw [Bool.not_eq_true] at he
      cases hc : t.child b with
      | none =>
        simp only [containsPath, he, Bool.false_eq_true, if_false, hc]
        constructor
        · intro h; exact absurd h (by simp)
        · rintro ⟨k, hk⟩
          cases k with
          | zero => simp [terminalAt, he] at hk
          | succ k => simp [terminalAt, hc] at hk
      | some c =>
        simp only [containsPath, he, Bool.false_eq_true, if_false, hc]
        rw [ih c]
        constructor
        · rintro ⟨k, hk⟩
          exact ⟨k + 1, by simpa [terminalAt, hc] using hk⟩
        · rintro ⟨k, hk⟩
          cases k with
          | zero => simp [terminalAt, he] at hk
          | succ k => exact ⟨k, by simpa [terminalAt, hc] using hk⟩

theorem terminalAt_insertPath : ∀ (bs : List Bool) (i : Nat) (t : TrieNode) (p : List Bool),
    terminalAt p (insertPath bs i t) = true ↔ (p = bs ∨ terminalAt p t = true) := by
  intro bs
  induction bs with
  | nil =>
    intro i t p
    obtain ⟨l, r, e, d⟩ := t
    cases p with
    | nil => simp [insertPath, terminalAt, TrieNode.isEnd]
    | cons b' ps => cases b' <;> simp [insertPath, terminalAt, TrieNode.child]
  | cons b bs ih =>
    intro i t p
    obtain ⟨l, r, e, d⟩ := t
    cases p with
    | nil =>
      cases b <;> simp [insertPath, terminalAt, TrieNode.isEnd]
    | cons b' ps =>
      cases b <;> cases b' <;>
          simp [insertPath, terminalAt, TrieNode.child]
      · rw [ih]
        cases l with
        | none => simp [terminalAt_fresh]
        | some c => simp
      · rw [ih]
        cases r with
        | none => simp [terminalAt_fresh]
        | some c => simp

end EllioPlugin

namespace EllioPlugin

theorem rootV4_foldl : ∀ (P : List Cidr) (t : Trie) (pr : List Bool),
    terminalAt pr (P.foldl Trie.insert t).rootV4 = true ↔
      ((∃ p ∈ P, p.addr.is4 = true ∧ pr = pathBits p) ∨ terminalAt pr t.rootV4 = true) := by
  intro P
  induction P with
  | nil => intro t pr; simp
  | cons p P ih =>
    intro t pr
    rw [List.foldl_cons, ih]
    cases hp : p.addr with
    | v4 ip =>
      have h4 : (Trie.insert t p).rootV4 = insertPath (pathBits p) 0 t.rootV4 := by
        simp [Trie.insert, hp, insertV4, pathBits]
      rw [h4, terminalAt_insertPath]
      constructor
      · rintro (⟨q, hq, h1, h2⟩ | hpr | hold)
        · exact Or.inl ⟨q, List.mem_cons_of_mem _ hq, h1, h2⟩
        · exact Or.inl ⟨p, List.mem_cons_self _ _, by simp [Addr.is4, hp], hpr⟩
        · exact Or.inr hold
      · rintro (⟨q, hq, h1, h2⟩ | hold)
        · rcases List.mem_cons.mp hq with rfl | hq
          · exact Or.inr (Or.inl h2)
          · exact Or.inl ⟨q, hq, h1, h2⟩
        · exact Or.inr (Or.inr hold)
    | v6 ip z =>
      have h4 : (Trie.insert t p).rootV4 = t.rootV4 := by
        simp [Trie.insert, hp]
      rw [h4]
      constructor
      · rintro (⟨q, hq, h1, h2⟩ | hold)
        · exact Or.inl ⟨q, List.mem_cons_of_mem _ hq, h1, h2⟩
        · exact Or.inr hold
      · rintro (⟨q, hq, h1, h2⟩ | hold)
        · rcases List.mem_cons.mp hq with rfl | hq
          · rw [hp] at h1; simp [Addr.is4] at h1
          · exact Or.inl ⟨q, hq, h1, h2⟩
        · exact Or.inr hold

end EllioPlugin

namespace EllioPlugin

theorem rootV6_foldl : ∀ (P : List Cidr) (t : Trie) (pr : List Bool),
    terminalAt pr (P.foldl Trie.insert t).rootV6 = true ↔
      ((∃ p ∈ P, p.addr.is4 = false ∧ pr = pathBits p) ∨ terminalAt pr t.rootV6 = true) := by
  intro P
  induction P with
  | nil => intro t pr; simp
  | cons p P ih =>
    intro t pr
    rw [List.foldl_cons, ih]
    cases hp : p.addr with
    | v6 ip z =>
      have h6 : (Trie.insert t p).rootV6 = insertPath (pathBits p) 0 t.rootV6 := by
        simp [Trie.insert, hp, insertV6, pathBits]
      rw [h6, terminalAt_insertPath]
      constructor
      · rintro (⟨q, hq, h1, h2⟩ | hpr | hold)
        · exact Or.inl ⟨q, List.mem_cons_of_mem _ hq, h1, h2⟩
        · exact Or.inl ⟨p, List.mem_cons_self _ _, by simp [Addr.is4, hp], hpr⟩
        · exact Or.inr hold
      · rintro (⟨q, hq, h1, h2⟩ | hold)
        · rcases List.mem_cons.mp hq with rfl | hq
          · exact Or.inr (Or.inl h2)
          · exact Or.inl ⟨q, hq, h1, h2⟩
        · exact Or.inr (Or.inr hold)
    | v4 ip =>
      have h6 : (Trie.insert t p).rootV6 = t.rootV6 := by
        simp [Trie.insert, hp]
      rw [h6]
      constructor
      · rintro (⟨q, hq, h1, h2⟩ | hold)
        · exact Or.inl ⟨q, List.mem_cons_of_mem _ hq, h1, h2⟩
        · exact Or.inr hold
      · rintro (⟨q, hq, h1, h2⟩ | hold)
        · rcases List.mem_cons.mp hq with rfl | hq
          · rw [hp] at h1; simp [Addr.is4] at h1
          · exact Or.inl ⟨q, hq, h1, h2⟩
        · exact Or.inr hold

theorem addrBit_testBit (w x i : Nat) : addrBit w x i = x.testBit (w - 1 - i) := by
  rw [Nat.testBit_to_div_mod, addrBit]
  cases h : x / 2 ^ (w - 1 - i) % 2 == 1 <;> simp_all

theorem v6Bit_split (x i : Nat) (hi : i < 128) :
    v6Bit (x / 2 ^ 64) (x % 2 ^ 64) i = addrBit 128 x i := by
  unfold v6Bit
  by_cases h : i < 64
  · simp only [h, if_true]
    have he : 64 + (63 - i) = 128 - 1 - i := by omega
    have e : x / 2 ^ 64 / 2 ^ (63 - i) = x / 2 ^ (128 - 1 - i) := by
      rw [Nat.div_div_eq_div_mul, ← pow_add, he]
    rw [addrBit, e]
  · simp only [h, if_false]
    have h1 : (x % 2 ^ 64).testBit (127 - i) = x.testBit (127 - i) := by
      rw [Nat.testBit_mod_two_pow]
      have hd : 127 - i < 64 := by omega
      simp [hd]
    have h2 : x % 2 ^ 64 / 2 ^ (127 - i) % 2 = x / 2 ^ (127 - i) % 2 := by
      rw [Nat.testBit_to_div_mod, Nat.testBit_to_div_mod] at h1
      have hA : x % 2 ^ 64 / 2 ^ (127 - i) % 2 < 2 := Nat.mod_lt _ (by norm_num)
      have hB : x / 2 ^ (127 - i) % 2 < 2 := Nat.mod_lt _ (by norm_num)
      rw [decide_eq_decide] at h1
      omega
    rw [addrBit, h2]

theorem take_map_range_iff (w kb : Nat) (f g : Nat → Bool) (hk : kb ≤ w) :
    (∃ k, ((List.range w).map f).take k = (List.range kb).map g) ↔
      (∀ i, i < kb → g i = f i) := by
  constructor
  · rintro ⟨k, hk2⟩
    have hlen := congrArg List.length hk2
    simp only [List.length_take, List.length_map, List.length_range] at hlen
    intro i hi
    have hi2 : i < (((List.range w).map f).take k).length := by
      simp only [List.length_take, List.length_map, List.length_range]
      omega
    have hi3 : i < ((List.range kb).map g).length := by
      simp only [List.length_map, List.length_range]
      omega
    have e1 : (((List.range w).map f).take k)[i] = f i := by
      rw [List.getElem_take, List.getElem_map, List.getElem_range]
    have e2 : ((List.range kb).map g)[i] = g i := by
      rw [List.getElem_map, List.getElem_range]
    have e3 := List.getElem_of_eq hk2 hi2
    rw [← e2, ← e3, e1]
  · intro h
    refine ⟨kb, ?_⟩
    rw [← List.map_take, List.take_range, Nat.min_def, if_pos hk]
    exact List.map_congr_left fun a ha => (h a (List.mem_range.mp ha)).symm

end EllioPlugin

namespace EllioPlugin

theorem containsAddr_buildTrie (P : List Cidr) (a : Addr) (hP : ∀ p ∈ P, p.wfp) :
    Trie.containsAddr (buildTrie P) a = P.any fun p => p.covers a := by
  cases a with
  | v4 ip =>
    rw [Bool.eq_iff_iff, List.any_eq_true]
    simp only [Trie.containsAddr, containsV4, buildTrie]
    rw [containsPath_iff]
    constructor
    · rintro ⟨k, hk⟩
      rw [rootV4_foldl] at hk
      rcases hk with ⟨p, hpP, h4, hpath⟩ | habs
      · refine ⟨p, hpP, ?_⟩
        obtain ⟨pa, pb⟩ := p
        cases pa with
        | v6 q z => simp [Addr.is4] at h4
        | v4 q =>
          have hb : pb ≤ 32 := (hP _ hpP).2
          have hcv := (take_map_range_iff 32 pb (fun i => addrBit 32 ip i)
            (fun i => addrBit 32 q i) hb).mp ⟨k, by simpa [pathBits] using hpath⟩
          simpa [Cidr.covers] using hcv
      · rw [show (Trie.new).rootV4 = TrieNode.fresh 0 from rfl, terminalAt_fresh] at habs
        exact absurd habs (by simp)
    · rintro ⟨p, hpP, hcov⟩
      obtain ⟨pa, pb⟩ := p
      cases pa with
      | v6 q z => simp [Cidr.covers] at hcov
      | v4 q =>
        have hb : pb ≤ 32 := (hP _ hpP).2
        have hcov2 : ∀ i, i < pb → addrBit 32 q i = addrBit 32 ip i := by
          simpa [Cidr.covers] using hcov
        obtain ⟨k, hk⟩ := (take_map_range_iff 32 pb (fun i => addrBit 32 ip i)
          (fun i => addrBit 32 q i) hb).mpr hcov2
        refine ⟨k, ?_⟩
        rw [rootV4_foldl]
        exact Or.inl ⟨⟨.v4 q, pb⟩, hpP, rfl, by simpa [pathBits] using hk⟩
  | v6 ip z0 =>
    have hq : ((List.range 128).map fun i => v6Bit (ip / 2 ^ 64) (ip % 2 ^ 64) i) =
        (List.range 128).map fun i => addrBit 128 ip i :=
      List.map_congr_left fun i hi => v6Bit_split ip i (List.mem_range.mp hi)
    rw [Bool.eq_iff_iff, List.any_eq_true]
    simp only [Trie.containsAddr, containsV6, buildTrie]
    rw [hq, containsPath_iff]
    constructor
    · rintro ⟨k, hk⟩
      rw [rootV6_foldl] at hk
      rcases hk with ⟨p, hpP, h6, hpath⟩ | habs
      · refine ⟨p, hpP, ?_⟩
        obtain ⟨pa, pb⟩ := p
        cases pa with
        | v4 q => simp [Addr.is4] at h6
        | v6 q zq =>
          have hb : pb ≤ 128 := (hP _ hpP).2
          have hpq : pathBits ⟨.v6 q zq, pb⟩ = (List.range pb).map fun i => addrBit 128 q i := by
            simp only [pathBits]
            exact List.map_congr_left fun i hi =>
              v6Bit_split q i (lt_of_lt_of_le (List.mem_range.mp hi) hb)
          have hcv := (take_map_range_iff 128 pb (fun i => addrBit 128 ip i)
            (fun i => addrBit 128 q i) hb).mp ⟨k, by rw [hpath, hpq]⟩
          simpa [Cidr.covers] using hcv
      · rw [show (Trie.new).rootV6 = TrieNode.fresh 0 from rfl, terminalAt_fresh] at habs
        exact absurd habs (by simp)
    · rintro ⟨p, hpP, hcov⟩
      obtain ⟨pa, pb⟩ := p
      cases pa with
      | v4 q => simp [Cidr.covers] at hcov
      | v6 q zq =>
        have hb : pb ≤ 128 := (hP _ hpP).2
        have hcov2 : ∀ i, i < pb → addrBit 128 q i = addrBit 128 ip i := by
          simpa [Cidr.covers] using hcov
        obtain ⟨k, hk⟩ := (take_map_range_iff 128 pb (fun i => addrBit 128 ip i)
          (fun i => addrBit 128 q i) hb).mpr hcov2
        refine ⟨k, ?_⟩
        rw [rootV6_foldl]
        refine Or.inl ⟨⟨.v6 q zq, pb⟩, hpP, rfl, ?_⟩
        have hpq : pathBits ⟨.v6 q zq, pb⟩ = (List.range pb).map fun i => addrBit 128 q i := by
          simp only [pathBits]
          exact List.map_congr_left fun i hi =>
            v6Bit_split q i (lt_of_lt_of_le (List.mem_range.mp hi) hb)
        rw [hpq, hk]

end EllioPlugin

namespace EllioPlugin

theorem allBits_inj (w x y : Nat) (hx : x < 2 ^ w) (hy : y < 2 ^ w) :
    (∀ i, i < w → addrBit w x i = addrBit w y i) ↔ x = y := by
  constructor
  · intro h
    apply Nat.eq_of_testBit_eq
    intro j
    by_cases hj : j < w
    · have hb := h (w - 1 - j) (by omega)
      rw [addrBit_testBit, addrBit_testBit] at hb
      have hw : w - 1 - (w - 1 - j) = j := by omega
      rwa [hw] at hb
    · have hxj : x < 2 ^ j :=
        lt_of_lt_of_le hx (Nat.pow_le_pow_right (by norm_num) (by omega))
      have hyj : y < 2 ^ j :=
        lt_of_lt_of_le hy (Nat.pow_le_pow_right (by norm_num) (by omega))
      rw [Nat.testBit_lt_two_pow hxj, Nat.testBit_lt_two_pow hyj]
  · rintro rfl
    intro i _
    rfl

/-- C3: for a trie built by a sequence of `Insert` calls from a prefix list
`P` and any address `a`, `Contains` returns true iff some prefix in `P`
covers `a`; moreover a length-0 prefix of `a`'s family makes `a` match, and a
full-length (/32 or /128) prefix covers exactly its own address value. -/
theorem trie_contains_iff_covered (P : List Cidr) (a : Addr)
    (hP : ∀ p ∈ P, p.wfp) (ha : a.wfp) :
    (Trie.containsAddr (buildTrie P) a = P.any fun p => p.covers a) ∧
    (∀ p ∈ P, p.bits = 0 → p.addr.is4 = a.is4 →
      Trie.containsAddr (buildTrie P) a = true) ∧
    (∀ p ∈ P, p.bits = p.addr.width →
      (p.covers a = true ↔ (p.addr.is4 = a.is4 ∧ p.addr.val = a.val))) := by
  refine ⟨containsAddr_buildTrie P a hP, ?_, ?_⟩
  · intro p hp hz hfam
    rw [containsAddr_buildTrie P a hP, List.any_eq_true]
    refine ⟨p, hp, ?_⟩
    obtain ⟨pa, pb⟩ := p
    simp only at hz
    subst hz
    cases pa <;> cases a <;> simp_all [Cidr.covers, Addr.is4]
  · intro p hp hfull
    obtain ⟨pa, pb⟩ := p
    have hwf := hP _ hp
    simp only [Cidr.wfp] at hwf
    cases pa with
    | v4 q =>
      cases a with
      | v4 ip =>
        simp only [Addr.width] at hfull
        subst hfull
        simp only [Cidr.covers, Addr.is4, Addr.val, decide_eq_true_eq]
        rw [allBits_inj 32 q ip hwf.1 ha]
        simp
      | v6 ip z => simp [Cidr.covers, Addr.is4]
    | v6 q zq =>
      cases a with
      | v4 ip => simp [Cidr.covers, Addr.is4]
      | v6 ip z =>
        simp only [Addr.width] at hfull
        subst hfull
        simp only [Cidr.covers, Addr.is4, Addr.val, decide_eq_true_eq]
        rw [allBits_inj 128 q ip hwf.1 ha]
        simp

end EllioPlugin

namespace EllioPlugin

/-- C1: with the deployment enabled, `Manager.IsIPAllowed` on a textual IP
that parses successfully returns `allowed = (mode == "blocklist") XOR
matcher.Contains(ip)` with a nil error; with the deployment not enabled it
returns `(true, nil)` for every input. -/
theorem manager_isIPAllowed_formula (m : Manager) (s : String) (a : Addr) :
    (m.isDeploymentEnabled = true → parseAddr s = some a →
      m.isIPAllowed s = (xor (m.edlMode == "blocklist") (m.matcher.containsStr s), none)) ∧
    (m.isDeploymentEnabled = false → m.isIPAllowed s = (true, none)) := by
  constructor
  · intro he _hp
    simp only [Manager.isIPAllowed, he, Bool.not_true, Bool.false_eq_true, if_false]
  · intro hd
    simp [Manager.isIPAllowed, hd]

theorem manager_isIPAllowed_formula_witness :
    (Manager.isDeploymentEnabled ⟨true, false, "blocklist", ⟨buildTrie [⟨.v4 3405803776, 24⟩], 1⟩⟩ = true) ∧
    parseAddr "203.0.113.9" = some (.v4 3405803785) ∧
    Manager.isIPAllowed ⟨true, false, "blocklist", ⟨buildTrie [⟨.v4 3405803776, 24⟩], 1⟩⟩ "203.0.113.9" =
      (xor ((("blocklist" : String)) == "blocklist")
        (Matcher.containsStr ⟨buildTrie [⟨.v4 3405803776, 24⟩], 1⟩ "203.0.113.9"), none) :=
  ⟨by decide, by decide,
    (manager_isIPAllowed_formula ⟨true, false, "blocklist", ⟨buildTrie [⟨.v4 3405803776, 24⟩], 1⟩⟩
      "203.0.113.9" (.v4 3405803785)).1 (by decide) (by decide)⟩

/-- C2 evaluation: for an enabled blocklist deployment and the unparseable
client IP "not-an-ip", the non-debug `Manager.IsIPAllowed` returns
`(true, nil)` — no "invalid IP" error — so the dispatcher passes the request
through instead of answering 400; in allowlist mode the same input is blocked
with 403.  Only the debug-path `IsIPAllowedWithStats` surfaces the parse
error that the dispatcher would map to 400. -/
theorem invalid_ip_no_error_evaluation :
    parseAddr "not-an-ip" = none ∧
    Manager.isIPAllowed ⟨true, false, "blocklist", ⟨buildTrie [⟨.v4 3405803776, 24⟩], 1⟩⟩
      "not-an-ip" = (true, none) ∧
    serveHTTPDecision (some ⟨true, false, "blocklist", ⟨buildTrie [⟨.v4 3405803776, 24⟩], 1⟩⟩)
      ⟨⟨"direct", ""⟩, []⟩ ⟨"not-an-ip", []⟩ = .pass ∧
    Manager.isIPAllowed ⟨true, false, "allowlist", ⟨buildTrie [⟨.v4 3405803776, 24⟩], 1⟩⟩
      "not-an-ip" = (false, none) ∧
    serveHTTPDecision (some ⟨true, false, "allowlist", ⟨buildTrie [⟨.v4 3405803776, 24⟩], 1⟩⟩)
      ⟨⟨"direct", ""⟩, []⟩ ⟨"not-an-ip", []⟩ = .blocked ∧
    Manager.isIPAllowedWithStats ⟨true, false, "blocklist", ⟨buildTrie [⟨.v4 3405803776, 24⟩], 1⟩⟩
      "not-an-ip" = (false, false, some (.parseAddrFailure "not-an-ip")) := by
  refine ⟨by decide, by decide, by decide, by decide, by decide, by decide⟩

/-- C5: `updateNow` on a failed fetch records the error in `lastError` and
leaves the matcher (and so the serving trie) unchanged; on a successful fetch
it replaces the matcher bundle wholesale, records `lastUpdate`, clears
`lastError` and increments `updateCount`. -/
theorem updateNow_spec (res : FetchResult) (now : Nat) (u : UpdaterState) (m : Matcher) :
    (∀ e, res = .fail e →
      updateNow res now u m = (some e, { u with lastError := some e }, m)) ∧
    (∀ trie count, res = .ok trie count →
      updateNow res now u m = (none, ⟨now, none, u.updateCount + 1⟩, ⟨trie, count⟩)) := by
  constructor
  · rintro e rfl; rfl
  · rintro trie count rfl; rfl

theorem updateNow_spec_witness :
    updateNow (.fail (.simple "connection refused")) 7 ⟨3, none, 5⟩ Matcher.new =
      (some (.simple "connection refused"),
        ⟨3, some (.simple "connection refused"), 5⟩, Matcher.new) ∧
    updateNow (.ok (buildTrie [⟨.v4 3405803776, 24⟩]) 1) 9 ⟨3, some (.simple "old"), 5⟩
      Matcher.new =
      (none, ⟨9, none, 6⟩, ⟨buildTrie [⟨.v4 3405803776, 24⟩], 1⟩) :=
  ⟨(updateNow_spec (.fail (.simple "connection refused")) 7 ⟨3, none, 5⟩ Matcher.new).1
      (.simple "connection refused") rfl,
    (updateNow_spec (.ok (buildTrie [⟨.v4 3405803776, 24⟩]) 1) 9 ⟨3, some (.simple "old"), 5⟩
      Matcher.new).2 (buildTrie [⟨.v4 3405803776, 24⟩]) 1 rfl⟩

set_option maxRecDepth 8192 in
/-- C6 evaluation: `RingBuffer.Add` reports success in every case, so the
`!Add` branch of `SendEvent` is dead.  At a full capacity-2 buffer holding
events 1 (oldest, at `head = tail`) and 2, adding event 3 overwrites the
oldest slot, keeps the size at capacity, and `SendEvent` over a full ingress
channel leaves the drop counter at 0 even though event 1 was discarded. -/
theorem ringbuffer_overflow_evaluation :
    (∀ (rb : RingBuffer) (e : BlockEvent), (rb.add e).1 = true) ∧
    RingBuffer.add ⟨[some ⟨1⟩, some ⟨2⟩], 2, 0, 0, 2⟩ ⟨3⟩ =
      (true, ⟨[some ⟨3⟩, some ⟨2⟩], 2, 1, 1, 2⟩) ∧
    sendEvent ⟨List.replicate 1000 ⟨0⟩, ⟨[some ⟨1⟩, some ⟨2⟩], 2, 0, 0, 2⟩, 0⟩ ⟨3⟩ =
      ⟨List.replicate 1000 ⟨0⟩, ⟨[some ⟨3⟩, some ⟨2⟩], 2, 1, 1, 2⟩, 0⟩ := by
  refine ⟨fun rb e => ?_, by decide, by decide⟩
  unfold RingBuffer.add
  split <;> rfl

end EllioPlugin

namespace EllioPlugin

theorem isFromTrustedProxy_false_iff (e : Middleware) (d : String) :
    isFromTrustedProxy e d = false ↔
      ∀ a, parseAddr d = some a → ∀ t ∈ e.trustedProxies, t.containsIP a = false := by
  unfold isFromTrustedProxy
  cases hp : parseAddr d with
  | none => simp
  | some a => simp [List.any_eq_false]

theorem isFromTrustedProxy_true_iff (e : Middleware) (d : String) :
    isFromTrustedProxy e d = true ↔
      ∃ a, parseAddr d = some a ∧ ∃ t ∈ e.trustedProxies, t.containsIP a = true := by
  unfold isFromTrustedProxy
  cases hp : parseAddr d with
  | none => simp
  | some a => simp [List.any_eq_true]

/-- C4: when the strategy is not "direct" and trusted proxies are configured
but the direct peer IP is not contained in any trusted-proxy prefix,
`extractClientIP` ignores all forwarding headers and returns the direct IP;
when the peer is trusted, "xff" returns the first comma-separated
`X-Forwarded-For` token trimmed, "real-ip" returns `X-Real-IP`, and "custom"
returns the configured trusted header, each falling back to the direct IP
when the header is absent. -/
theorem extractClientIP_trust_policy (e : Middleware) (r : Request) :
    (e.config.ipStrategy ≠ "direct" → e.trustedProxies ≠ [] →
      (∀ a, parseAddr (getDirectIP r.remoteAddr) = some a →
        ∀ t ∈ e.trustedProxies, t.containsIP a = false) →
      extractClientIP e r = getDirectIP r.remoteAddr) ∧
    ((∃ a, parseAddr (getDirectIP r.remoteAddr) = some a ∧
        ∃ t ∈ e.trustedProxies, t.containsIP a = true) →
      ((e.config.ipStrategy = "xff" →
          (headerGet r.headers "X-Forwarded-For" ≠ "" →
            extractClientIP e r =
              trimSpace (String.mk
                ((splitGo ',' (headerGet r.headers "X-Forwarded-For").data).headD []))) ∧
          (headerGet r.headers "X-Forwarded-For" = "" →
            extractClientIP e r = getDirectIP r.remoteAddr)) ∧
       (e.config.ipStrategy = "real-ip" →
          (headerGet r.headers "X-Real-IP" ≠ "" →
            extractClientIP e r = trimSpace (headerGet r.headers "X-Real-IP")) ∧
          (headerGet r.headers "X-Real-IP" = "" →
            extractClientIP e r = getDirectIP r.remoteAddr)) ∧
       (e.config.ipStrategy = "custom" → e.config.trustedHeader ≠ "" →
          (headerGet r.headers e.config.trustedHeader ≠ "" →
            extractClientIP e r = trimSpace (headerGet r.headers e.config.trustedHeader)) ∧
          (headerGet r.headers e.config.trustedHeader = "" →
            extractClientIP e r = getDirectIP r.remoteAddr)))) := by
  constructor
  · intro hs hne hcov
    have hf : isFromTrustedProxy e (getDirectIP r.remoteAddr) = false :=
      (isFromTrustedProxy_false_iff e _).mpr hcov
    have hb : (e.config.ipStrategy == "direct") = false := by simp [hs]
    have hl : (e.trustedProxies.length == 0) = false := by
      simp [List.length_eq_zero, hne]
    simp [extractClientIP, hb, hl, hf]
  · intro hex
    have ht : isFromTrustedProxy e (getDirectIP r.remoteAddr) = true :=
      (isFromTrustedProxy_true_iff e _).mpr hex
    have hl : (e.trustedProxies.length == 0) = false := by
      obtain ⟨a, _, t, hmem, _⟩ := hex
      simp [List.length_eq_zero, List.ne_nil_of_mem hmem]
    refine ⟨fun hstrat => ⟨fun hx => ?_, fun hx => ?_⟩,
            fun hstrat => ⟨fun hx => ?_, fun hx => ?_⟩,
            fun hstrat hth => ⟨fun hx => ?_, fun hx => ?_⟩⟩
    · simp [extractClientIP, hl, ht, hstrat, hx]
    · simp [extractClientIP, hl, ht, hstrat, hx]
    · simp [extractClientIP, hl, ht, hstrat, hx]
    · simp [extractClientIP, hl, ht, hstrat, hx]
    · simp [extractClientIP, hl, ht, hstrat, hth, hx]
    · simp [extractClientIP, hl, ht, hstrat, hth, hx]

end EllioPlugin

namespace EllioPlugin

theorem extractClientIP_trust_policy_witness :
    extractClientIP ⟨⟨"xff", ""⟩, [⟨.v4 167772160, 8⟩]⟩
        ⟨"10.0.0.1:12345", [("X-Forwarded-For", "203.0.113.1, 10.0.0.2")]⟩ =
      trimSpace (String.mk ((splitGo ','
        (headerGet [("X-Forwarded-For", "203.0.113.1, 10.0.0.2")]
          "X-Forwarded-For").data).headD [])) ∧
    trimSpace (String.mk ((splitGo ','
      (headerGet [("X-Forwarded-For", "203.0.113.1, 10.0.0.2")]
        "X-Forwarded-For").data).headD [])) = "203.0.113.1" :=
  ⟨((((extractClientIP_trust_policy ⟨⟨"xff", ""⟩, [⟨.v4 167772160, 8⟩]⟩
      ⟨"10.0.0.1:12345", [("X-Forwarded-For", "203.0.113.1, 10.0.0.2")]⟩).2
        ⟨.v4 167772161, by decide, ⟨.v4 167772160, 8⟩, by decide, by decide⟩).1
          rfl).1 (by decide)),
    by decide⟩

/-- C7 counterexample to the claim as stated: a 9-byte stream whose 9 bytes
are not `ELLIOTRIE` is rejected by the failing header read (`binary.Read`
reads the full 24-byte header first), not with `ErrInvalidMagic`. -/
theorem load_short_stream_counterexample :
    [65, 65, 65, 65, 65, 65, 65, 65, 65].take 9 ≠ magicBytes ∧
    loadPrecomputedTrie [65, 65, 65, 65, 65, 65, 65, 65, 65] =
      .fail (.simple "unexpected EOF") ∧
    Err.simple "unexpected EOF" ≠ errInvalidMagic := by
  refine ⟨by decide, by decide, by decide⟩

/-- C7 (amended): for every stream containing a complete 24-byte header,
a magic field other than `ELLIOTRIE` is rejected with `ErrInvalidMagic`, a
version field other than 2 (with valid magic) is rejected with
`ErrUnsupportedVersion`, and on success the returned approximate count is
`total_nodes / 7` with `total_nodes` taken from the header. -/
theorem load_header_validation (input : List Nat) (h : 24 ≤ input.length) :
    (input.take 9 ≠ magicBytes → loadPrecomputedTrie input = .fail errInvalidMagic) ∧
    (input.take 9 = magicBytes → beBytes ((input.drop 9).take 2) ≠ 2 →
      loadPrecomputedTrie input = .fail errUnsupportedVersion) ∧
    (∀ t c, loadPrecomputedTrie input = .ok t c →
      c = Int.ofNat (t.totalNodes / 7) ∧ t.totalNodes = beBytes ((input.drop 12).take 4)) := by
  have hlen : ¬(input.length < 24) := by omega
  refine ⟨?_, ?_, ?_⟩
  · intro hm
    rw [loadPrecomputedTrie, if_neg hlen, if_pos (by simpa using hm)]
  · intro hm hv
    rw [loadPrecomputedTrie, if_neg hlen, if_neg (by simpa using hm),
      if_pos (by simpa using hv)]
  · intro t c hok
    rw [loadPrecomputedTrie, if_neg hlen] at hok
    dsimp only at hok
    repeat' split at hok
    all_goals cases hok
    exact ⟨rfl, rfl⟩

theorem load_header_validation_witness :
    24 ≤ ([66, 66, 66, 66, 66, 66, 66, 66, 66, 0, 2, 0, 0, 0, 0, 0,
      255, 255, 255, 255, 255, 255, 255, 255] : List Nat).length ∧
    loadPrecomputedTrie [66, 66, 66, 66, 66, 66, 66, 66, 66, 0, 2, 0, 0, 0, 0, 0,
      255, 255, 255, 255, 255, 255, 255, 255] = .fail errInvalidMagic :=
  ⟨by decide,
    (load_header_validation [66, 66, 66, 66, 66, 66, 66, 66, 66, 0, 2, 0, 0, 0, 0, 0,
      255, 255, 255, 255, 255, 255, 255, 255] (by decide)).1 (by decide)⟩

/-- C8: the bootstrap status mapping — 200 is success (no `APIError`), 410 is
an error satisfying `IsPermanentError`, 403 is an error satisfying
`IsTemporaryDisabled` carrying up to 1 KiB of body, and every other non-2xx
status is an opaque error carrying the status code and up to 1 KiB of body. -/
theorem bootstrap_status_mapping (status : Nat) (body : String)
    (hrange : status < 200 ∨ 300 ≤ status) (h403 : status ≠ 403) (h410 : status ≠ 410) :
    bootstrapStatusResult 200 body = none ∧
    (∃ e, bootstrapStatusResult 410 body = some e ∧ isPermanentError e = true) ∧
    (∃ e, bootstrapStatusResult 403 body = some e ∧ isTemporaryDisabled e = true ∧
      e = .apiError 403 ("deployment temporarily disabled: " ++ body.take 1024)) ∧
    (∃ e, bootstrapStatusResult status body = some e ∧
      e = .apiError status
        ("bootstrap failed with status " ++ toString status ++ ": " ++ body.take 1024)) := by
  have h200 : status ≠ 200 := by omega
  refine ⟨rfl, ⟨_, rfl, rfl⟩, ⟨_, rfl, rfl, rfl⟩,
    ⟨.apiError status
      ("bootstrap failed with status " ++ toString status ++ ": " ++ body.take 1024), ?_, rfl⟩⟩
  simp [bootstrapStatusResult, h403, h410, h200]

theorem bootstrap_status_mapping_witness :
    ((500 : Nat) < 200 ∨ 300 ≤ 500) ∧
    (∃ e, bootstrapStatusResult 500 "oops" = some e ∧
      e = .apiError 500 ("bootstrap failed with status " ++ toString (500 : Nat) ++ ": " ++
        ("oops" : String).take 1024)) :=
  ⟨by decide, (bootstrap_status_mapping 500 "oops" (by decide) (by decide) (by decide)).2.2.2⟩

/-- C9: a stream with valid magic, version 2 and a well-formed header whose
single node record carries the left-child index 5 — neither the `0xFFFFFFFF`
sentinel nor less than `total_nodes = 1` — makes `LoadPrecomputedTrie` panic
with an out-of-range slice index instead of returning an error. -/
theorem load_oob_child_panics :
    (magicBytes ++ [0, 2] ++ [0] ++ [0, 0, 0, 1] ++ [0, 0, 0, 0] ++ [255, 255, 255, 255]
        ++ [0, 0, 0, 5] ++ [255, 255, 255, 255] ++ [1]).take 9 = magicBytes ∧
    beBytes (((magicBytes ++ [0, 2] ++ [0] ++ [0, 0, 0, 1] ++ [0, 0, 0, 0]
        ++ [255, 255, 255, 255] ++ [0, 0, 0, 5] ++ [255, 255, 255, 255] ++ [1]).drop 9).take 2)
      = 2 ∧
    (5 ≠ 4294967295 ∧ ¬(5 < 1)) ∧
    loadPrecomputedTrie (magicBytes ++ [0, 2] ++ [0] ++ [0, 0, 0, 1] ++ [0, 0, 0, 0]
        ++ [255, 255, 255, 255] ++ [0, 0, 0, 5] ++ [255, 255, 255, 255] ++ [1]) =
      .panicked "runtime error: index out of range" := by
  refine ⟨by decide, by decide, ⟨by decide, by decide⟩, by decide⟩

end EllioPlugin

namespace EllioPlugin

theorem trie_contains_iff_covered_witness :
    (∀ p ∈ ([⟨.v4 3405803776, 24⟩] : List Cidr), p.wfp) ∧
    (Addr.v4 3405803785).wfp ∧
    Trie.containsAddr (buildTrie [⟨.v4 3405803776, 24⟩]) (.v4 3405803785) =
      [(⟨.v4 3405803776, 24⟩ : Cidr)].any fun p => p.covers (.v4 3405803785) :=
  ⟨by decide, by decide,
    (trie_contains_iff_covered [⟨.v4 3405803776, 24⟩] (.v4 3405803785)
      (by decide) (by decide)).1⟩

theorem containsPath_fresh (bits : List Bool) (d : Nat) :
    containsPath bits (TrieNode.fresh d) = false := by
  cases bits with
  | nil => rfl
  | cons b bs => cases b <;> rfl

theorem rootV6_buildTrie_v4only : ∀ (P : List Cidr) (t : Trie),
    (∀ p ∈ P, p.addr.is4 = true) → (P.foldl Trie.insert t).rootV6 = t.rootV6 := by
  intro P
  induction P with
  | nil => intro t _; rfl
  | cons p P ih =>
    intro t hP
    rw [List.foldl_cons, ih _ fun q hq => hP q (List.mem_cons_of_mem _ hq)]
    have h4 := hP p (List.mem_cons_self _ _)
    cases hp : p.addr with
    | v4 ip => simp [Trie.insert, hp]
    | v6 ip z => rw [hp] at h4; simp [Addr.is4] at h4

/-- C10: a trie holding only IPv4 prefixes never matches a query that parses
to a 16-byte (IPv6) address — in particular the IPv4-mapped IPv6 spelling
`::ffff:a.b.c.d` of an address covered by an inserted IPv4 prefix: the parsed
mapped address is not a 4-byte IPv4 value, so `Matcher.Contains` walks the
(empty) IPv6 root and returns false. -/
theorem mapped_v6_query_misses_v4 (P : List Cidr) (hP4 : ∀ p ∈ P, p.addr.is4 = true)
    (s : String) (v4val v6val : Nat) (z : String) (count : Int)
    (_hmap : v6val = 65535 * 2 ^ 32 + v4val)
    (hparse : parseAddr s = some (.v6 v6val z))
    (_hcov : ∃ p ∈ P, p.covers (.v4 v4val) = true) :
    Matcher.containsStr ⟨buildTrie P, count⟩ s = false := by
  unfold Matcher.containsStr
  rw [hparse]
  show Trie.containsAddr (buildTrie P) (.v6 v6val z) = false
  unfold Trie.containsAddr
  rw [show (buildTrie P).rootV6 = (Trie.new).rootV6 from rootV6_buildTrie_v4only P Trie.new hP4]
  exact containsPath_fresh _ 0

theorem mapped_v6_query_misses_v4_witness :
    (∀ p ∈ ([⟨.v4 3405803776, 24⟩] : List Cidr), p.addr.is4 = true) ∧
    parseAddr "::ffff:203.0.113.9" = some (.v6 (65535 * 2 ^ 32 + 3405803785) "") ∧
    (∃ p ∈ ([⟨.v4 3405803776, 24⟩] : List Cidr), p.covers (.v4 3405803785) = true) ∧
    Matcher.containsStr ⟨buildTrie [⟨.v4 3405803776, 24⟩], 1⟩ "::ffff:203.0.113.9" = false ∧
    Matcher.containsStr ⟨buildTrie [⟨.v4 3405803776, 24⟩], 1⟩ "203.0.113.9" = true :=
  ⟨by decide, by decide, ⟨⟨.v4 3405803776, 24⟩, by decide, by decide⟩,
    mapped_v6_query_misses_v4 [⟨.v4 3405803776, 24⟩] (by decide) "::ffff:203.0.113.9"
      3405803785 (65535 * 2 ^ 32 + 3405803785) "" 1 (by decide) (by decide)
      ⟨⟨.v4 3405803776, 24⟩, by decide, by decide⟩,
    by decide⟩

end EllioPlugin
